import Mathlib

/-!
Verification of the table-layout and enum-wrapping engine of
`display-structure.py` (MySQL Display Structure Tool).

The Python source is shallowly embedded below: every function is translated
to an executable Lean definition operating on `String` / `List Char`, with
Python string primitives (`split`, `strip`, `startswith`, slicing, regular
expression matching of the two fixed patterns used by the program) realised
as explicit recursive functions.  Theorems about the claims of the
specification follow the definitions.
-/

/-- The single-quote character, written via its code point. -/
def qc : Char := Char.ofNat 39

/-- The tab character. -/
def tabChar : Char := Char.ofNat 9

/-- A run of `n` spaces, as used by Python `" " * n` (empty for `n = 0`,
matching Python for non-positive counts). -/
def spaces (n : Nat) : String := String.mk (List.replicate n ' ')

/-- Python `s.ljust(n)`: pad on the right with spaces up to length `n`. -/
def ljust (s : String) (n : Nat) : String := s ++ spaces (n - s.length)

/-- Python `s[:-1]`: drop the final character. -/
def strDropLast (s : String) : String := String.mk s.data.dropLast

/-- Python whitespace, as recognised by `str.strip()`. -/
def isPySpace (c : Char) : Bool :=
  c = ' ' || c = tabChar || c = Char.ofNat 10 || c = Char.ofNat 13 ||
  c = Char.ofNat 11 || c = Char.ofNat 12

/-- Python `s.strip()`. -/
def pyStrip (s : String) : String :=
  String.mk (((s.data.dropWhile isPySpace).reverse.dropWhile isPySpace).reverse)

/-- Python `s.lower()` (ASCII case folding, which is all the program needs). -/
def pyLower (s : String) : String := String.mk (s.data.map Char.toLower)

/-- Python `s.startswith(pat)`. -/
def pyStartsWith (s pat : String) : Bool := pat.data.isPrefixOf s.data

/-- Python `s.endswith(pat)`. -/
def pyEndsWith (s pat : String) : Bool := pat.data.isSuffixOf s.data

/-- Helper for `splitChar`: accumulates the current field (reversed). -/
def splitCharAux (sep : Char) (cur : List Char) : List Char → List (List Char)
  | [] => [cur.reverse]
  | x :: rest =>
    if x = sep then cur.reverse :: splitCharAux sep [] rest
    else splitCharAux sep (x :: cur) rest

/-- Python `s.split(sep)` for a one-character separator: every occurrence
splits, empty fields are kept, and the empty string yields `[""]`. -/
def splitChar (sep : Char) (s : String) : List String :=
  (splitCharAux sep [] s.data).map String.mk

/-- Helper for `strContains`. -/
def strContainsAux (pat : List Char) : List Char → Bool
  | [] => pat.isEmpty
  | l@(_ :: rest) => pat.isPrefixOf l || strContainsAux pat rest

/-- Python `pat in s` (substring containment). -/
def strContains (s pat : String) : Bool := strContainsAux pat.data s.data

/-- Scanner for the regular expression `'[^']*'` used via `re.findall`:
outside a match it looks for an opening quote, inside a match (`some acc`)
it accumulates characters until the closing quote.  Matches are
non-overlapping and found left to right, exactly as `re.findall` does. -/
def findQuotedAux : Option (List Char) → List Char → List String
  | _, [] => []
  | none, c :: rest =>
    if c = qc then findQuotedAux (some []) rest else findQuotedAux none rest
  | some acc, c :: rest =>
    if c = qc then String.mk (qc :: (acc.reverse ++ [qc])) :: findQuotedAux none rest
    else findQuotedAux (some (c :: acc)) rest

/-- Python `re.findall(r"'[^']*'", s)` on a character list: the fully
single-quoted substrings, in source order, quotes retained. -/
def findQuoted (l : List Char) : List String := findQuotedAux none l

/-- The part of `l` strictly before the last close parenthesis of `l`,
or `none` when `l` has no close parenthesis.  This realises the greedy
group of the regular expression `enum\((.*)\)`. -/
def upToLastParen : List Char → Option (List Char)
  | [] => none
  | c :: rest =>
    match upToLastParen rest with
    | some v => some (c :: v)
    | none => if c = ')' then some [] else none

/-- `re.search(r"enum\((.*)\)", s)`, returning the captured group: the scan
looks for the leftmost occurrence of `enum(` that is followed by a close
parenthesis, and the greedy `.*` extends the group to the last close
parenthesis. -/
def findEnumContent : List Char → Option (List Char)
  | [] => none
  | l@(_ :: rest) =>
    if "enum(".data.isPrefixOf l then
      match upToLastParen (l.drop 5) with
      | some content => some content
      | none => findEnumContent rest
    else findEnumContent rest

/-- `get_enum_values` from the source: extract enum values from an enum
string by matching `enum\((.*)\)` and collecting quoted substrings of the
captured group. -/
def get_enum_values (enum_str : String) : List String :=
  match findEnumContent enum_str.data with
  | none => []
  | some content => findQuoted content

/-- The comma decoration of the packing loop in `format_enum`: every value
except the last receives a trailing comma (`val += ","` when
`i < len(enum_values) - 1`). -/
def commaAll : List String → List String
  | [] => []
  | [v] => [v]
  | v :: rest => (v ++ ",") :: commaAll rest

/-- The greedy packing loop of `format_enum` (source lines 280 to 298):
`acc` is the list of completed lines, `cur` the line under construction. -/
def packLoop (width : Nat) : List String → List String → String → List String × String
  | [], acc, cur => (acc, cur)
  | v :: vs, acc, cur =>
    if cur = "" then packLoop width vs acc v
    else if width < (cur ++ " " ++ v).length then packLoop width vs (acc ++ [cur]) v
    else packLoop width vs acc (cur ++ " " ++ v)

/-- The closing step of `format_enum` on the final line: a trailing comma is
replaced by the close parenthesis, otherwise the parenthesis is appended. -/
def close1 (l : String) : String :=
  if pyEndsWith l "," then strDropLast l ++ ")" else l ++ ")"

/-- Apply `close1` to the last element of a list of lines. -/
def closeLast : List String → List String
  | [] => []
  | [l] => [close1 l]
  | l :: rest => l :: closeLast rest

/-- `format_enum` from the source: wrap an enum declaration into lines of at
most `column_width` characters (best effort), first line `enum(` plus the
first value, remaining values packed greedily, close parenthesis attached to
the final line. -/
def format_enum (enum_str : String) (column_width : Nat) : List String :=
  match get_enum_values enum_str with
  | [] => [enum_str]
  | v0 :: rest =>
    let first_line := "enum(" ++ v0 ++ (if rest.isEmpty then "" else ",")
    let packed := packLoop column_width (commaAll rest) [first_line] ""
    let lines := if packed.2 = "" then packed.1 else packed.1 ++ [packed.2]
    closeLast lines

/-- ANSI color constants of the source (class `Colors`). -/
def colorRESET : String := "\x1b[0m"

/-- ANSI bold. -/
def colorBOLD : String := "\x1b[1m"

/-- ANSI red foreground. -/
def colorRED : String := "\x1b[31m"

/-- ANSI green foreground. -/
def colorGREEN : String := "\x1b[32m"

/-- ANSI yellow foreground. -/
def colorYELLOW : String := "\x1b[33m"

/-- ANSI blue foreground. -/
def colorBLUE : String := "\x1b[34m"

/-- ANSI magenta foreground. -/
def colorMAGENTA : String := "\x1b[35m"

/-- ANSI cyan foreground. -/
def colorCYAN : String := "\x1b[36m"

/-- `colorize_cell` from the source: apply a color to a cell based on the
owning column header and the cell content; the identity when colorization
is off or no rule matches. -/
def colorize_cell (cell header : String) (colorize : Bool) : String :=
  if !colorize then cell
  else if pyLower header = "key" then
    if cell = "PRI" then colorBOLD ++ colorRED ++ cell ++ colorRESET
    else if cell = "UNI" then colorBOLD ++ colorBLUE ++ cell ++ colorRESET
    else if cell = "MUL" then colorBOLD ++ colorGREEN ++ cell ++ colorRESET
    else cell
  else if pyLower header = "null" then
    if cell = "NO" then colorBOLD ++ colorRED ++ cell ++ colorRESET
    else if cell = "YES" then colorGREEN ++ cell ++ colorRESET
    else cell
  else if pyLower header = "type" then
    if strContains (pyLower cell) "int" then colorCYAN ++ cell ++ colorRESET
    else if strContains (pyLower cell) "char" || strContains (pyLower cell) "text" then
      colorGREEN ++ cell ++ colorRESET
    else if strContains (pyLower cell) "date" || strContains (pyLower cell) "time" then
      colorYELLOW ++ cell ++ colorRESET
    else if strContains (pyLower cell) "enum" then colorMAGENTA ++ cell ++ colorRESET
    else cell
  else if pyLower header = "extra" then
    if strContains (pyLower cell) "auto_increment" then
      colorBOLD ++ colorYELLOW ++ cell ++ colorRESET
    else cell
  else cell

/-- Pipe-mode field extraction of the parser: `line.split("|")[1:-1]`, each
field stripped. -/
def splitPipe (line : String) : List String :=
  (((splitChar '|' line).drop 1).dropLast).map pyStrip

/-- The data-row loop of the pipe branch of `parse_mysql_table` (source
lines 201 to 208): separator lines (`+--` prefix) and blank lines are
skipped, every other line is split and stripped. -/
def pipeRows : List String → List (List String)
  | [] => []
  | l :: rest =>
    if pyStartsWith l "+--" then pipeRows rest
    else if pyStrip l == "" then pipeRows rest
    else splitPipe l :: pipeRows rest

/-- The per-cell width contribution of the width loop of `parse_mysql_table`
(source lines 236 to 245): enum cells contribute the length of their longest
quoted value plus the length of `enum(` plus one, other cells their length. -/
def cellWidthContribution (cell : String) : Nat :=
  if strContains cell "enum(" then
    ((findQuoted cell.data).map String.length).foldl max 0 + "enum(".length + 1
  else cell.length

/-- The width of one column (source lines 231 to 246): starting from the
header length, each row owning a cell at position `i` raises the maximum. -/
def columnWidth (header : String) (data : List (List String)) (i : Nat) : Nat :=
  data.foldl (fun acc row =>
    match row.get? i with
    | some cell => max acc (cellWidthContribution cell)
    | none => acc) header.length

/-- All column widths, one per header, in order. -/
def computeWidths (headers : List String) (data : List (List String)) : List Nat :=
  headers.enum.map (fun p => columnWidth p.2 data p.1)

/-- The column-filter step of `parse_mysql_table` (source lines 210 to 228).
Python truthiness of `filter_columns` makes both `None` and the empty list
skip filtering. -/
def applyFilter (headers : List String) (data : List (List String)) :
    Option (List String) → List String × List (List String)
  | none => (headers, data)
  | some filter_columns =>
    if filter_columns.isEmpty then (headers, data)
    else
      let selected := headers.enum.filter (fun p => filter_columns.contains p.2)
      let selected_indices := selected.map (fun p => p.1)
      let selected_headers := selected.map (fun p => p.2)
      (selected_headers,
       data.map (fun row => selected_indices.filterMap (fun i => row.get? i)))

/-- Format detection and raw extraction of `parse_mysql_table` (source lines
170 to 208): tab-delimited when the first line holds a tab, otherwise the
pipe-bordered format whose header is the first line starting with
`| Field`; `none` signals the early `[], [], []` returns. -/
def rawParse (lines : List String) : Option (List String × List (List String)) :=
  match lines with
  | [] => none
  | line0 :: _ =>
    if strContains line0 "\t" then
      some (splitChar tabChar line0,
            ((lines.drop 1).filter (fun l => !(pyStrip l == ""))).map
              (fun l => splitChar tabChar l))
    else
      match lines.findIdx? (fun l => pyStartsWith l "| Field") with
      | none => none
      | some header_line =>
        some (splitPipe (lines.getD header_line ""),
              pipeRows (lines.drop (header_line + 2)))

/-- `parse_mysql_table` from the source: raw extraction, optional column
filter, then width computation. -/
def parse_mysql_table (lines : List String) (filter_columns : Option (List String)) :
    List String × List (List String) × List Nat :=
  match rawParse lines with
  | none => ([], [], [])
  | some (headers, data) =>
    let fd := applyFilter headers data filter_columns
    (fd.1, fd.2, computeWidths fd.1 fd.2)

/-- The flexible-column search of `print_formatted_table` (source lines 350
to 357): the first header equal to `type` case-insensitively, else index 1
when there is more than one column. -/
def findTypeColIndex (headers : List String) : Option Nat :=
  match headers.findIdx? (fun h => pyLower h == "type") with
  | some i => some i
  | none => if headers.length > 1 then some 1 else none

/-- The width adjustment of `print_formatted_table` (source lines 359 to
370), with Python integer arithmetic carried out in `Int`. -/
def adjustWidthsAt (type_col : Option Nat) (column_widths : List Nat)
    (term_width : Nat) : List Nat :=
  match type_col with
  | none => column_widths
  | some t =>
    let non_type_width : Nat :=
      (column_widths.foldl (· + ·) 0) - column_widths.getD t 0 +
        ((column_widths.length - 1) * 3 + 4)
    let available_width : Int := (term_width : Int) - (non_type_width : Int)
    let type_width : Int := max ((column_widths.getD t 0 : Int)) (min available_width 50)
    column_widths.set t type_width.toNat

/-- The statistics mapping passed to `print_formatted_table`. -/
structure StatsData where
  row_count : Option String
  size_mb : Option String
  index_count : Option String

/-- The statistics block printed before the table (source lines 373 to 384);
`stats.get(key, "N/A")` becomes `Option.getD`. -/
def statsBlock : Option StatsData → Bool → List String
  | none, _ => []
  | some st, true =>
    [colorBOLD ++ "Table Statistics:" ++ colorRESET,
     "• Row Count: " ++ colorCYAN ++ st.row_count.getD "N/A" ++ colorRESET,
     "• Size: " ++ colorCYAN ++ st.size_mb.getD "N/A" ++ " MB" ++ colorRESET,
     "• Index Count: " ++ colorCYAN ++ st.index_count.getD "N/A" ++ colorRESET,
     ""]
  | some st, false =>
    ["Table Statistics:",
     "• Row Count: " ++ st.row_count.getD "N/A",
     "• Size: " ++ st.size_mb.getD "N/A" ++ " MB",
     "• Index Count: " ++ st.index_count.getD "N/A",
     ""]

/-- The border line (source lines 387 to 389): `+`, then per column
`width + 2` dashes and `+`. -/
def sepLine (column_widths : List Nat) : String :=
  column_widths.foldl
    (fun acc width => acc ++ String.mk (List.replicate (width + 2) '-') ++ "+") "+"

/-- The header row (source lines 393 to 402). -/
def headerLine (headers : List String) (column_widths : List Nat)
    (colorize : Bool) : String :=
  headers.enum.foldl (fun acc p =>
    let header := p.2
    let header_display := if colorize then colorBOLD ++ header ++ colorRESET else header
    acc ++ " " ++ ljust header_display header.length ++ " " ++
      spaces (column_widths.getD p.1 0 - header.length) ++ "|") "|"

/-- A normal (non-wrapped) data row (source lines 428 to 434). -/
def rowLine (headers : List String) (column_widths : List Nat)
    (colorize : Bool) (row : List String) : String :=
  row.enum.foldl (fun acc p =>
    let i := p.1
    let cell := p.2
    if i < column_widths.length then
      acc ++ " " ++ ljust (colorize_cell cell (headers.getD i "") colorize) cell.length
        ++ " " ++ spaces (column_widths.getD i 0 - cell.length) ++ "|"
    else acc) "|"

/-- One physical line of a row holding a wrapped enum (source lines 438 to
471): `j` is the index of `enum_line` among the `total` wrapped lines. -/
def enumRowLine (headers : List String) (column_widths : List Nat)
    (colorize : Bool) (enum_col : Nat) (row : List String)
    (total : Nat) (j : Nat) (enum_line : String) : String :=
  row.enum.foldl (fun acc p =>
    let i := p.1
    let cell := p.2
    if i < column_widths.length then
      if i = enum_col then
        let colored_enum := if colorize then colorMAGENTA ++ enum_line ++ colorRESET
                            else enum_line
        if j = total - 1 then
          acc ++ " " ++ colored_enum ++
            spaces (column_widths.getD i 0 - enum_line.length) ++ " |"
        else
          acc ++ " " ++ ljust colored_enum enum_line.length ++ " " ++
            spaces (column_widths.getD i 0 - enum_line.length) ++ "|"
      else
        if j = 0 then
          acc ++ " " ++ ljust (colorize_cell cell (headers.getD i "") colorize) cell.length
            ++ " " ++ spaces (column_widths.getD i 0 - cell.length) ++ "|"
        else
          acc ++ " " ++ ljust " " (column_widths.getD i 0) ++ " |"
    else acc) "|"

/-- The physical lines printed for one (already padded) data row (source
lines 415 to 471): the flexible-column cell is wrapped via `format_enum`
when it holds `enum(` and is longer than 40 characters. -/
def rowBlock (headers : List String) (column_widths : List Nat)
    (type_col : Option Nat) (colorize : Bool) (row : List String) : List String :=
  match type_col with
  | some t =>
    if t < row.length then
      if strContains (row.getD t "") "enum(" then
        if (row.getD t "").length > 40 then
          let enum_lines := format_enum (row.getD t "") (column_widths.getD t 0)
          enum_lines.enum.map (fun q =>
            enumRowLine headers column_widths colorize t row enum_lines.length q.1 q.2)
        else [rowLine headers column_widths colorize row]
      else [rowLine headers column_widths colorize row]
    else [rowLine headers column_widths colorize row]
  | none => [rowLine headers column_widths colorize row]

/-- The observable result of `print_formatted_table`: the printed lines
together with the final state of the arguments, since the Python function
mutates `column_widths` (the width adjustment) and the rows of `data` (the
padding loop of source lines 411 to 413) in place. -/
structure RenderResult where
  out : List String
  headers : List String
  data : List (List String)
  column_widths : List Nat

/-- `print_formatted_table` from the source, as a pure state-passing
function: terminal width is a parameter (the source queries the terminal). -/
def print_formatted_table (headers : List String) (data : List (List String))
    (column_widths : List Nat) (stats : Option StatsData) (colorize : Bool)
    (term_width : Nat) : RenderResult :=
  let type_col_index := findTypeColIndex headers
  let widths := adjustWidthsAt type_col_index column_widths term_width
  let padded := data.map (fun row => row ++ List.replicate (headers.length - row.length) "")
  let separator := sepLine widths
  let rowsOut := (padded.map (fun row => rowBlock headers widths type_col_index colorize row)).flatten
  { out := statsBlock stats colorize ++
      [separator, headerLine headers widths colorize, separator] ++ rowsOut ++ [separator],
    headers := headers, data := padded, column_widths := widths }

/-- Following the claim wording of C2: the data rows are the non-blank
lines not prefixed by `+--` among the lines after the header line (the line
at index `h + 1` included), split and trimmed. -/
def claimRowsAfterHeader (lines : List String) (h : Nat) : List (List String) :=
  ((lines.drop (h + 1)).filter
    (fun l => !(pyStartsWith l "+--") && !(pyStrip l == ""))).map splitPipe

/-- First index at which `pat` occurs as a prefix of a suffix of the list. -/
def occurrenceIdx (pat : List Char) : List Char → Option Nat
  | [] => if pat.isEmpty then some 0 else none
  | l@(_ :: rest) =>
    if pat.isPrefixOf l then some 0 else (occurrenceIdx pat rest).map (· + 1)

/-- Following the claim wording of C6: the content up to the close
parenthesis matching the open parenthesis (bracket matching by depth). -/
def uptoMatchingClose (depth : Nat) : List Char → Option (List Char)
  | [] => none
  | c :: rest =>
    if c = ')' then
      if depth = 0 then some []
      else (uptoMatchingClose (depth - 1) rest).map (fun v => c :: v)
    else if c = '(' then (uptoMatchingClose (depth + 1) rest).map (fun v => c :: v)
    else (uptoMatchingClose depth rest).map (fun v => c :: v)

/-- Following the claim wording of C6: the quoted substrings between the
first `(` following `enum` and its matching close parenthesis. -/
def claimEnumValuesMatching (s : String) : List String :=
  match occurrenceIdx "enum(".data s.data with
  | none => []
  | some i =>
    match uptoMatchingClose 0 (s.data.drop (i + 5)) with
    | none => []
    | some c => findQuoted c

/-- Following the claim wording of C7: the width of column `i` is the
maximum of the header length and the contributions of the cells present in
that column. -/
def claimColumnWidth (header : String) (data : List (List String)) (i : Nat) : Nat :=
  max header.length
    (((data.filterMap (fun row => row.get? i)).map cellWidthContribution).foldr max 0)

/-- Following the claim wording of C7: one width per header, in order. -/
def claimWidths (headers : List String) (data : List (List String)) : List Nat :=
  headers.enum.map (fun p => claimColumnWidth p.2 data p.1)

/-- The five-line pipe-format example of the specification. -/
def exampleLines : List String :=
  ["+---+------+", "| Field | Type |", "+---+------+", "| id | int(11) |",
   "+---+------+"]

/-! Helper lemmas. -/

/-- The pipe-mode data loop equals a filter followed by a map. -/
theorem pipeRows_eq_filter_map (ls : List String) :
    pipeRows ls =
      (ls.filter (fun l => !(pyStartsWith l "+--") && !(pyStrip l == ""))).map splitPipe := by
  induction ls with
  | nil => rfl
  | cons l rest ih =>
    cases h1 : pyStartsWith l "+--" <;> cases h2 : pyStrip l == "" <;>
      simp [pipeRows, h1, h2, List.filter_cons, ih]

/-- Folding a maximum from an initial value equals the maximum of the
initial value and the fold of the mapped list. -/
theorem foldl_max_eq_max_foldr (f : String → Nat) (cells : List String) :
    ∀ (init : Nat),
      cells.foldl (fun acc c => max acc (f c)) init = max init ((cells.map f).foldr max 0) := by
  induction cells with
  | nil => intro init; simp
  | cons c cs ih =>
    intro init
    simp only [List.foldl_cons, List.map_cons, List.foldr_cons, ih, Nat.max_assoc]

/-- The width loop with its presence guard equals a fold over the cells
actually present in the column. -/
theorem foldl_get_eq_filterMap (data : List (List String)) (i : Nat) :
    ∀ (init : Nat),
      data.foldl (fun acc row =>
        match row.get? i with
        | some cell => max acc (cellWidthContribution cell)
        | none => acc) init =
      (data.filterMap (fun row => row.get? i)).foldl
        (fun acc c => max acc (cellWidthContribution c)) init := by
  induction data with
  | nil => intro init; rfl
  | cons row rows ih =>
    intro init
    cases hg : row.get? i with
    | none => simp only [List.foldl_cons, List.filterMap_cons, hg, ih]
    | some cell => simp only [List.foldl_cons, List.filterMap_cons, hg, ih]

/-- The source width of one column equals the claim formulation. -/
theorem columnWidth_eq_claim (header : String) (data : List (List String)) (i : Nat) :
    columnWidth header data i = claimColumnWidth header data i := by
  unfold columnWidth claimColumnWidth
  rw [foldl_get_eq_filterMap, foldl_max_eq_max_foldr]

/-- The source width list equals the claim formulation. -/
theorem computeWidths_eq_claimWidths (headers : List String) (data : List (List String)) :
    computeWidths headers data = claimWidths headers data := by
  unfold computeWidths claimWidths
  simp only [columnWidth_eq_claim]

/-- Keeping the second components of the kept indexed headers is a plain
filter of the headers. -/
theorem enumFrom_filter_map_snd (fc : List String) (h : List String) :
    ∀ (n : Nat),
      ((List.enumFrom n h).filter (fun p => fc.contains p.2)).map (fun p => p.2) =
        h.filter (fun x => fc.contains x) := by
  induction h with
  | nil => intro n; rfl
  | cons x xs ih =>
    intro n
    have ih2 := ih (n + 1)
    by_cases hc : x ∈ fc <;>
      simp [List.enumFrom_cons, List.filter_cons, hc] at ih2 ⊢ <;>
      exact ih2

/-- Reading the entry just set. -/
theorem getD_set_self (l : List Nat) (t v : Nat) (h : t < l.length) :
    (l.set t v).getD t 0 = v := by
  simp [List.getD, List.get?_eq_getElem?, List.getElem?_set_self, h]

/-- Reading an entry other than the one set. -/
theorem get?_set_ne (l : List Nat) (t j v : Nat) (h : t ≠ j) :
    (l.set t v).get? j = l.get? j := by
  simp [List.get?_eq_getElem?, List.getElem?_set_ne h]

/-- Reading the flexible entry after the adjustment. -/
theorem adjustWidthsAt_getD (column_widths : List Nat) (term_width t : Nat)
    (ht : t < column_widths.length) :
    (adjustWidthsAt (some t) column_widths term_width).getD t 0 =
      (max ((column_widths.getD t 0 : Int))
        (min ((term_width : Int) -
          ((((column_widths.foldl (· + ·) 0) - column_widths.getD t 0 +
            ((column_widths.length - 1) * 3 + 4)) : Nat) : Int)) 50)).toNat := by
  unfold adjustWidthsAt
  exact getD_set_self _ _ _ ht

/-- A natural number is at most the truncation of its maximum with anything. -/
theorem toNat_max_left (a : Nat) (m : Int) : a ≤ (max (a : Int) m).toNat := by
  have h1 : (a : Int) ≤ max (a : Int) m := le_max_left _ _
  have h2 := Int.toNat_le_toNat h1
  exact Int.toNat_natCast a ▸ h2

/-- Upper bound for the adjusted width value. -/
theorem toNat_max_min50_le (a : Nat) (x : Int) :
    (max (a : Int) (min x 50)).toNat ≤ max a 50 := by
  have h1 : max (a : Int) (min x 50) ≤ ((max a 50 : Nat) : Int) := by
    apply max_le
    · exact_mod_cast le_max_left a 50
    · calc min x (50 : Int) ≤ (50 : Int) := min_le_right _ _
        _ ≤ ((max a 50 : Nat) : Int) := by exact_mod_cast le_max_right a 50
  have h2 := Int.toNat_le_toNat h1
  simpa using h2

/-- Claim C1, amended: with a flexible column at index `t`, rendering sets
its width to `max(originalFlexWidth, min(terminalWidth - nonFlexibleWidth, 50))`
with `nonFlexibleWidth = sum(widths) - widths[t] + 3*(columnCount-1) + 4`;
the final flexible width is always at least its natural content-driven
minimum and at most `max(originalFlexWidth, 50)` (the bound 50 claimed by
the specification holds only when the natural width is itself at most 50,
see the counterexample). -/
theorem c1_flex_width (headers : List String) (data : List (List String))
    (column_widths : List Nat) (stats : Option StatsData) (colorize : Bool)
    (term_width : Nat) (t : Nat)
    (hfind : findTypeColIndex headers = some t)
    (ht : t < column_widths.length) :
    (print_formatted_table headers data column_widths stats colorize
        term_width).column_widths.getD t 0 =
      (max ((column_widths.getD t 0 : Int))
        (min ((term_width : Int) -
          ((((column_widths.foldl (· + ·) 0) - column_widths.getD t 0 +
            ((column_widths.length - 1) * 3 + 4)) : Nat) : Int)) 50)).toNat ∧
    column_widths.getD t 0 ≤
      (print_formatted_table headers data column_widths stats colorize
        term_width).column_widths.getD t 0 ∧
    (print_formatted_table headers data column_widths stats colorize
        term_width).column_widths.getD t 0 ≤ max (column_widths.getD t 0) 50 := by
  have hw : (print_formatted_table headers data column_widths stats colorize
      term_width).column_widths = adjustWidthsAt (some t) column_widths term_width := by
    simp [print_formatted_table, hfind]
  rw [hw, adjustWidthsAt_getD _ _ _ ht]
  exact ⟨rfl, toNat_max_left _ _, toNat_max_min50_le _ _⟩

/-- Claim C1, counterexample to the stated bound: a table whose flexible
column has natural width 60 keeps width 60 at terminal width 80, exceeding
the claimed upper bound of 50. -/
theorem c1_flex_width_cex :
    (print_formatted_table ["Field", "Type"] [] [5, 60] none false
        80).column_widths.getD 1 0 = 60 ∧
    ¬ ((print_formatted_table ["Field", "Type"] [] [5, 60] none false
        80).column_widths.getD 1 0 ≤ 50) :=
  ⟨by decide, by decide⟩

/-- Claim C1, witness: instance of `c1_flex_width` at a concrete table. -/
theorem c1_flex_width_witness :
    findTypeColIndex ["Field", "Type"] = some 1 ∧
    1 < ([5, 7] : List Nat).length ∧
    ((print_formatted_table ["Field", "Type"] [] [5, 7] none false
        19).column_widths.getD 1 0 =
      (max ((([5, 7] : List Nat).getD 1 0 : Int))
        (min ((19 : Int) -
          (((([5, 7] : List Nat).foldl (· + ·) 0) - ([5, 7] : List Nat).getD 1 0 +
            ((([5, 7] : List Nat).length - 1) * 3 + 4) : Nat) : Int)) 50)).toNat ∧
      ([5, 7] : List Nat).getD 1 0 ≤
        (print_formatted_table ["Field", "Type"] [] [5, 7] none false
          19).column_widths.getD 1 0 ∧
      (print_formatted_table ["Field", "Type"] [] [5, 7] none false
          19).column_widths.getD 1 0 ≤ max (([5, 7] : List Nat).getD 1 0) 50) :=
  ⟨by decide, by decide,
    c1_flex_width ["Field", "Type"] [] [5, 7] none false 19 1 (by decide) (by decide)⟩

/-- Claim C2, amended: in pipe-delimited mode the parsed rows are exactly
the non-blank non-`+--`-prefixed lines starting TWO positions past the
header line (the line immediately after the header is skipped
unconditionally, as the presumed separator), each split on `|` with the
outer fields dropped and every cell trimmed. -/
theorem c2_pipe_rows (line0 : String) (rest : List String) (h : Nat)
    (htab : strContains line0 "\t" = false)
    (hidx : (line0 :: rest).findIdx? (fun l => pyStartsWith l "| Field") = some h) :
    (parse_mysql_table (line0 :: rest) none).2.1 =
      (((line0 :: rest).drop (h + 2)).filter
        (fun l => !(pyStartsWith l "+--") && !(pyStrip l == ""))).map splitPipe := by
  unfold parse_mysql_table rawParse
  simp only [htab, Bool.false_eq_true, if_false, hidx, applyFilter,
    pipeRows_eq_filter_map]

/-- Claim C2, counterexample: a data line immediately after the header line
is dropped by the parser, while the claim requires it to be returned. -/
theorem c2_pipe_rows_cex :
    (["| Field | Type |", "| id | int |"].findIdx?
      (fun l => pyStartsWith l "| Field")) = some 0 ∧
    (parse_mysql_table ["| Field | Type |", "| id | int |"] none).2.1 = [] ∧
    claimRowsAfterHeader ["| Field | Type |", "| id | int |"] 0 = [["id", "int"]] ∧
    ([] : List (List String)) ≠ [["id", "int"]] :=
  ⟨by decide, by decide, by decide, by decide⟩

/-- Claim C2, witness: instance of `c2_pipe_rows` on the five-line example. -/
theorem c2_pipe_rows_witness :
    strContains "+---+------+" "\t" = false ∧
    (exampleLines.findIdx? (fun l => pyStartsWith l "| Field")) = some 1 ∧
    (parse_mysql_table exampleLines none).2.1 =
      ((exampleLines.drop (1 + 2)).filter
        (fun l => !(pyStartsWith l "+--") && !(pyStrip l == ""))).map splitPipe :=
  ⟨by decide, by decide,
    c2_pipe_rows "+---+------+"
      ["| Field | Type |", "+---+------+", "| id | int(11) |", "+---+------+"] 1
      (by decide) (by decide)⟩

/-- Claim C3, amended: the five-line example parses to headers
`["Field", "Type"]`, one row `["id", "int(11)"]`, widths `[5, 7]`, and (at
terminal width 19, colorization off, no statistics) renders as exactly FIVE
printed lines: opening border, header row, header/data separator border,
the data row, and the closing border (the specification omitted the
header/data separator and counted 4). -/
theorem c3_end_to_end :
    parse_mysql_table exampleLines none =
      (["Field", "Type"], [["id", "int(11)"]], [5, 7]) ∧
    (print_formatted_table ["Field", "Type"] [["id", "int(11)"]] [5, 7]
        none false 19).out =
      ["+-------+---------+", "| Field | Type    |", "+-------+---------+",
       "| id    | int(11) |", "+-------+---------+"] :=
  ⟨by decide, by decide⟩

/-- Claim C3, counterexample: rendering the example prints 5 lines, not the
4 lines stated by the claim. -/
theorem c3_end_to_end_cex :
    (print_formatted_table ["Field", "Type"] [["id", "int(11)"]] [5, 7]
        none false 19).out.length = 5 ∧
    (print_formatted_table ["Field", "Type"] [["id", "int(11)"]] [5, 7]
        none false 19).out.length ≠ 4 :=
  ⟨by decide, by decide⟩

/-- Claim C4, amended: wrapping `enum('a','b','c')` at width 10 yields
lines whose first starts with `enum('a',` (the first value with its quotes
retained, then a comma) and whose last ends with `)`, and concatenating the
quoted values carried by all lines reproduces the original value sequence
in order. -/
theorem c4_enum_wrap :
    format_enum "enum(\x27a\x27,\x27b\x27,\x27c\x27)" 10 =
      ["enum(\x27a\x27,", "\x27b\x27, \x27c\x27)"] ∧
    pyStartsWith "enum(\x27a\x27," "enum(\x27a\x27," = true ∧
    pyEndsWith "\x27b\x27, \x27c\x27)" ")" = true ∧
    ((format_enum "enum(\x27a\x27,\x27b\x27,\x27c\x27)" 10).map
      (fun l => findQuoted l.data)).flatten =
      get_enum_values "enum(\x27a\x27,\x27b\x27,\x27c\x27)" :=
  ⟨by decide, by decide, by decide, by decide⟩

/-- Claim C4, counterexample: the first wrapped line is `enum('a',` with the
quotes retained, so it does not start with the unquoted `enum(a,` stated by
the claim. -/
theorem c4_enum_wrap_cex :
    format_enum "enum(\x27a\x27,\x27b\x27,\x27c\x27)" 10 =
      ["enum(\x27a\x27,", "\x27b\x27, \x27c\x27)"] ∧
    pyStartsWith "enum(\x27a\x27," "enum(a," = false :=
  ⟨by decide, by decide⟩

/-- Claim C7: for every parsed table and every column, the computed width
equals the maximum of the header length and, over the rows owning a cell in
that column, the cell contribution, which is the full cell length except for
cells holding `enum(`, which contribute the length of their longest
single-quoted value (quotes included) plus the length of `enum(` plus one. -/
theorem c7_width_computation (lines : List String) (fc : Option (List String)) :
    (parse_mysql_table lines fc).2.2 =
      claimWidths (parse_mysql_table lines fc).1 (parse_mysql_table lines fc).2.1 := by
  unfold parse_mysql_table
  cases h : rawParse lines with
  | none => simp [claimWidths]
  | some hd => simp [computeWidths_eq_claimWidths]

/-- Claim C8: for a non-empty column filter, the parser returns exactly the
headers present in the filter in their original order, and every row is
rebuilt keeping only the positions of the kept headers, positions past a
short row silently dropped; unknown names are ignored. -/
theorem c8_column_filter (lines : List String) (fc : List String) (hfc : fc ≠ []) :
    (parse_mysql_table lines (some fc)).1 =
      (parse_mysql_table lines none).1.filter (fun x => fc.contains x) ∧
    (parse_mysql_table lines (some fc)).2.1 =
      (parse_mysql_table lines none).2.1.map (fun row =>
        (((parse_mysql_table lines none).1.enum.filter
            (fun p => fc.contains p.2)).map (fun p => p.1)).filterMap
          (fun i => row.get? i)) := by
  obtain ⟨f, fs, rfl⟩ : ∃ f fs, fc = f :: fs := by
    cases fc with
    | nil => exact absurd rfl hfc
    | cons f fs => exact ⟨f, fs, rfl⟩
  unfold parse_mysql_table
  cases h : rawParse lines with
  | none => exact ⟨rfl, rfl⟩
  | some hd =>
    obtain ⟨hs, d⟩ := hd
    refine ⟨?_, rfl⟩
    show ((hs.enum.filter (fun p => (f :: fs).contains p.2)).map (fun p => p.2)) = _
    exact enumFrom_filter_map_snd (f :: fs) hs 0

/-- Claim C8, witness: instance of `c8_column_filter` on the example. -/
theorem c8_column_filter_witness :
    (["Type"] : List String) ≠ [] ∧
    ((parse_mysql_table exampleLines (some ["Type"])).1 =
      (parse_mysql_table exampleLines none).1.filter
        (fun x => (["Type"] : List String).contains x) ∧
    (parse_mysql_table exampleLines (some ["Type"])).2.1 =
      (parse_mysql_table exampleLines none).2.1.map (fun row =>
        (((parse_mysql_table exampleLines none).1.enum.filter
            (fun p => (["Type"] : List String).contains p.2)).map (fun p => p.1)).filterMap
          (fun i => row.get? i))) :=
  ⟨by decide, c8_column_filter exampleLines ["Type"] (by decide)⟩

/-- Claim C9, amended: rendering leaves the headers unchanged and changes no
width entry other than the flexible one, but it also pads every row shorter
than the header count with empty-string cells, in place; the final rows are
the original rows padded to the header count. -/
theorem c9_render_effects (headers : List String) (data : List (List String))
    (column_widths : List Nat) (stats : Option StatsData) (colorize : Bool)
    (term_width : Nat) (t j : Nat)
    (hfind : findTypeColIndex headers = some t) (hj : j ≠ t) :
    (print_formatted_table headers data column_widths stats colorize
        term_width).headers = headers ∧
    (print_formatted_table headers data column_widths stats colorize
        term_width).data =
      data.map (fun row => row ++ List.replicate (headers.length - row.length) "") ∧
    (print_formatted_table headers data column_widths stats colorize
        term_width).column_widths.get? j = column_widths.get? j := by
  refine ⟨rfl, rfl, ?_⟩
  have hw : (print_formatted_table headers data column_widths stats colorize
      term_width).column_widths = adjustWidthsAt (some t) column_widths term_width := by
    simp [print_formatted_table, hfind]
  rw [hw]
  unfold adjustWidthsAt
  exact get?_set_ne _ _ _ _ (fun e => hj e.symm)

/-- Claim C9, counterexample: rendering a table holding a row shorter than
the header count changes that row, appending empty cells in place. -/
theorem c9_render_effects_cex :
    (print_formatted_table ["Field", "Type"] [["id"]] [5, 4] none false
        19).data = [["id", ""]] ∧
    ([["id"]] : List (List String)) ≠ [["id", ""]] :=
  ⟨by decide, by decide⟩

/-- Claim C9, witness: instance of `c9_render_effects` at a concrete table. -/
theorem c9_render_effects_witness :
    findTypeColIndex ["Field", "Type"] = some 1 ∧
    (0 : Nat) ≠ 1 ∧
    ((print_formatted_table ["Field", "Type"] [["id", "int(11)"]] [5, 7] none
        false 19).headers = ["Field", "Type"] ∧
     (print_formatted_table ["Field", "Type"] [["id", "int(11)"]] [5, 7] none
        false 19).data =
       [["id", "int(11)"]].map (fun row =>
         row ++ List.replicate ((["Field", "Type"] : List String).length - row.length) "") ∧
     (print_formatted_table ["Field", "Type"] [["id", "int(11)"]] [5, 7] none
        false 19).column_widths.get? 0 = ([5, 7] : List Nat).get? 0) :=
  ⟨by decide, by decide,
    c9_render_effects ["Field", "Type"] [["id", "int(11)"]] [5, 7] none false 19 1 0
      (by decide) (by decide)⟩

/-- Claim C10: supplying an empty (but present) column filter performs no
filtering at all; the result is identical to parsing without a filter. -/
theorem c10_empty_filter (lines : List String) :
    parse_mysql_table lines (some []) = parse_mysql_table lines none := by
  unfold parse_mysql_table
  cases h : rawParse lines with
  | none => rfl
  | some hd => rfl

/-- A string extended by a comma ends with a comma. -/
theorem pyEndsWith_comma (s : String) : pyEndsWith (s ++ ",") "," = true := by
  have h : (s ++ ",").data.reverse = ',' :: s.data.reverse := by
    rw [String.data_append]
    show (s.data ++ [',']).reverse = ',' :: s.data.reverse
    rw [List.reverse_append]
    rfl
  show List.isSuffixOf (",".data) ((s ++ ",").data) = true
  unfold List.isSuffixOf
  rw [h]
  show List.isPrefixOf [','] (',' :: s.data.reverse) = true
  rw [List.isPrefixOf]
  simp [List.isPrefixOf]

/-- Every string produced by the quoted-substring scanner is of the form
`'...'`: a quote, a body, a quote. -/
theorem findQuotedAux_shape :
    ∀ (l : List Char) (st : Option (List Char)) (v : String),
      v ∈ findQuotedAux st l → ∃ m, v.data = qc :: (m ++ [qc]) := by
  intro l
  induction l with
  | nil => intro st v hv; cases st <;> simp [findQuotedAux] at hv
  | cons c rest ih =>
    intro st v hv
    cases st with
    | none =>
      by_cases hc : c = qc
      · rw [show findQuotedAux none (c :: rest) = findQuotedAux (some []) rest from
          by simp [findQuotedAux, hc]] at hv
        exact ih _ _ hv
      · rw [show findQuotedAux none (c :: rest) = findQuotedAux none rest from
          by simp [findQuotedAux, hc]] at hv
        exact ih _ _ hv
    | some acc =>
      by_cases hc : c = qc
      · rw [show findQuotedAux (some acc) (c :: rest) =
            String.mk (qc :: (acc.reverse ++ [qc])) :: findQuotedAux none rest from
          by simp [findQuotedAux, hc]] at hv
        rcases List.mem_cons.mp hv with h1 | h2
        · exact ⟨acc.reverse, by rw [h1]⟩
        · exact ih _ _ h2
      · rw [show findQuotedAux (some acc) (c :: rest) =
            findQuotedAux (some (c :: acc)) rest from by simp [findQuotedAux, hc]] at hv
        exact ih _ _ hv

/-- Every enum value returned by `get_enum_values` is a quoted string. -/
theorem get_enum_values_shape (s : String) (v : String)
    (hv : v ∈ get_enum_values s) : ∃ m, v.data = qc :: (m ++ [qc]) := by
  unfold get_enum_values at hv
  cases h : findEnumContent s.data with
  | none => rw [h] at hv; simp at hv
  | some content => rw [h] at hv; exact findQuotedAux_shape content none v hv

/-- A quoted string does not end with a comma. -/
theorem pyEndsWith_comma_shape (v : String) (m : List Char)
    (h : v.data = qc :: (m ++ [qc])) : pyEndsWith v "," = false := by
  have hrev : v.data.reverse = qc :: (m.reverse ++ [qc]) := by
    rw [h]
    simp
  simp [pyEndsWith, List.isSuffixOf, hrev, List.isPrefixOf, qc]

/-- The closing step on a line with a trailing comma replaces it by `)`. -/
theorem close1_comma (v : String) : close1 (v ++ ",") = v ++ ")" := by
  have h2 : strDropLast (v ++ ",") = v := by
    unfold strDropLast
    rw [String.data_append]
    show String.mk (v.data ++ [',']).dropLast = v
    rw [List.dropLast_concat]
  simp [close1, pyEndsWith_comma, h2]

/-- The closing step on a line without a trailing comma appends `)`. -/
theorem close1_noComma (l : String) (h : pyEndsWith l "," = false) :
    close1 l = l ++ ")" := by
  simp [close1, h]

/-- The closing step adds at most one character. -/
theorem close1_length (l : String) (w : Nat) (h : l.length ≤ w) :
    (close1 l).length ≤ w + 1 := by
  have hl : l.length = l.data.length := rfl
  have h9 : (")" : String).length = 1 := rfl
  by_cases hc : pyEndsWith l "," = true
  · rw [close1, if_pos hc, String.length_append, h9]
    have hd : (strDropLast l).length = l.data.length - 1 := by
      show l.data.dropLast.length = l.data.length - 1
      exact List.length_dropLast l.data
    omega
  · rw [close1, if_neg hc, String.length_append, h9]
    omega

/-- Every element of `commaAll L` is an element of `L`, possibly with a
trailing comma. -/
theorem commaAll_mem : ∀ (L : List String) (l : String),
    l ∈ commaAll L → ∃ v, v ∈ L ∧ (l = v ∨ l = v ++ ",") := by
  intro L
  induction L with
  | nil => intro l hl; simp [commaAll] at hl
  | cons v L ih =>
    intro l hl
    cases L with
    | nil =>
      simp [commaAll] at hl
      exact ⟨v, by simp, Or.inl hl⟩
    | cons v2 L2 =>
      rw [show commaAll (v :: v2 :: L2) = (v ++ ",") :: commaAll (v2 :: L2) from rfl] at hl
      rcases List.mem_cons.mp hl with h | h
      · exact ⟨v, by simp, Or.inr h⟩
      · obtain ⟨u, hu, hue⟩ := ih l h
        exact ⟨u, List.mem_cons_of_mem v hu, hue⟩

/-- Invariant of the greedy packing loop: every completed line either fits
the width or is a single packed value, and the same holds for the line
under construction (which may instead be empty). -/
theorem packLoop_inv (width : Nat) (S : List String) :
    ∀ (vals : List String) (acc : List String) (cur : String),
      (∀ v ∈ vals, v ∈ S) →
      (cur = "" ∨ cur.length ≤ width ∨ cur ∈ S) →
      ∃ extra,
        (packLoop width vals acc cur).1 = acc ++ extra ∧
        (∀ l ∈ extra, l.length ≤ width ∨ l ∈ S) ∧
        ((packLoop width vals acc cur).2 = "" ∨
         (packLoop width vals acc cur).2.length ≤ width ∨
         (packLoop width vals acc cur).2 ∈ S) := by
  intro vals
  induction vals with
  | nil =>
    intro acc cur hvals hcur
    exact ⟨[], by simp [packLoop], by simp, by simpa [packLoop] using hcur⟩
  | cons v vs ih =>
    intro acc cur hvals hcur
    have hvS : v ∈ S := hvals v (by simp)
    have hvs : ∀ u ∈ vs, u ∈ S := fun u hu => hvals u (by simp [hu])
    have hunf : packLoop width (v :: vs) acc cur =
        (if cur = "" then packLoop width vs acc v
         else if width < (cur ++ " " ++ v).length then packLoop width vs (acc ++ [cur]) v
         else packLoop width vs acc (cur ++ " " ++ v)) := rfl
    by_cases h0 : cur = ""
    · rw [show packLoop width (v :: vs) acc cur = packLoop width vs acc v from
        by rw [hunf, if_pos h0]]
      exact ih acc v hvs (Or.inr (Or.inr hvS))
    · by_cases hlen : width < (cur ++ " " ++ v).length
      · rw [show packLoop width (v :: vs) acc cur = packLoop width vs (acc ++ [cur]) v from
          by rw [hunf, if_neg h0, if_pos hlen]]
        obtain ⟨extra, he1, he2, he3⟩ := ih (acc ++ [cur]) v hvs (Or.inr (Or.inr hvS))
        refine ⟨cur :: extra, ?_, ?_, he3⟩
        · rw [he1]; simp
        · intro l hl
          rcases List.mem_cons.mp hl with rfl | hl2
          · rcases hcur with hc | hc | hc
            · exact absurd hc h0
            · exact Or.inl hc
            · exact Or.inr hc
          · exact he2 l hl2
      · rw [show packLoop width (v :: vs) acc cur = packLoop width vs acc (cur ++ " " ++ v) from
          by rw [hunf, if_neg h0, if_neg hlen]]
        exact ih acc (cur ++ " " ++ v) hvs (Or.inr (Or.inl (Nat.le_of_not_lt hlen)))

/-- `closeLast` on two or more lines leaves the head untouched. -/
theorem closeLast_cons_cons (l l2 : String) (rest : List String) :
    closeLast (l :: l2 :: rest) = l :: closeLast (l2 :: rest) := rfl

/-- `closeLast` preserves the number of lines. -/
theorem closeLast_length : ∀ (L : List String), (closeLast L).length = L.length := by
  intro L
  induction L with
  | nil => rfl
  | cons l L ih =>
    cases L with
    | nil => rfl
    | cons l2 rest =>
      rw [closeLast_cons_cons]
      simp [ih]

/-- `closeLast` of a nonempty list is nonempty. -/
theorem closeLast_ne_nil (l2 : String) (rest : List String) :
    closeLast (l2 :: rest) ≠ [] := by
  intro h
  have h2 := closeLast_length (l2 :: rest)
  rw [h] at h2
  simp at h2

/-- `closeLast` changes nothing before the last line. -/
theorem closeLast_dropLast : ∀ (L : List String),
    (closeLast L).dropLast = L.dropLast := by
  intro L
  induction L with
  | nil => rfl
  | cons l L ih =>
    cases L with
    | nil => rfl
    | cons l2 rest =>
      rw [closeLast_cons_cons,
        List.dropLast_cons_of_ne_nil (closeLast_ne_nil l2 rest),
        List.dropLast_cons_of_ne_nil (List.cons_ne_nil l2 rest), ih]

/-- Transport of a property through `closeLast`: a property `R` holds of
every output line provided `Q` implies `R` both directly and through the
closing step. -/
theorem closeLast_prop (Q R : String → Prop)
    (h1 : ∀ l, Q l → R (close1 l)) (h2 : ∀ l, Q l → R l) :
    ∀ (L : List String), (∀ l ∈ L, Q l) → ∀ l ∈ closeLast L, R l := by
  intro L
  induction L with
  | nil =>
    intro _ l hl
    rw [show closeLast ([] : List String) = [] from rfl] at hl
    exact absurd hl (List.not_mem_nil l)
  | cons x L ih =>
    intro hQ l hl
    cases L with
    | nil =>
      rw [show closeLast [x] = [close1 x] from rfl] at hl
      rw [List.mem_singleton.mp hl]
      exact h1 x (hQ x (by simp))
    | cons x2 rest =>
      rw [closeLast_cons_cons] at hl
      rcases List.mem_cons.mp hl with rfl | hl2
      · exact h2 l (hQ l (by simp))
      · exact ih (fun u hu => hQ u (by simp [hu])) l hl2

/-- Wrap bounds for the closed lines after the first: every line either
fits (the last line may exceed the width by the one appended close
parenthesis) or consists of a single value with its decoration. -/
theorem wrapTailProp (w : Nat) (values rest : List String)
    (hsub : ∀ v ∈ rest, v ∈ values)
    (hshape : ∀ v ∈ values, ∃ m, v.data = qc :: (m ++ [qc]))
    (first : String) (M : List String)
    (hM : ∀ l ∈ M, l.length ≤ w ∨ l ∈ commaAll rest) :
    (∀ l ∈ (closeLast (first :: M)).tail.dropLast,
       l.length ≤ w ∨ ∃ v, v ∈ values ∧ (l = v ∨ l = v ++ ",")) ∧
    (∀ l ∈ (closeLast (first :: M)).tail,
       l.length ≤ w + 1 ∨ ∃ v, v ∈ values ∧
         (l = v ∨ l = v ++ "," ∨ l = v ++ ")")) := by
  cases M with
  | nil =>
    constructor <;> intro l hl <;>
      rw [show closeLast [first] = [close1 first] from rfl] at hl <;>
      simp at hl
  | cons m M2 =>
    rw [closeLast_cons_cons, List.tail_cons]
    constructor
    · intro l hl
      rw [closeLast_dropLast] at hl
      have hmem : l ∈ m :: M2 := (List.dropLast_sublist (m :: M2)).mem hl
      rcases hM l hmem with hle | hin
      · exact Or.inl hle
      · obtain ⟨v, hv, hform⟩ := commaAll_mem rest l hin
        exact Or.inr ⟨v, hsub v hv, hform⟩
    · intro l hl
      refine closeLast_prop (fun u => u.length ≤ w ∨ u ∈ commaAll rest)
        (fun u => u.length ≤ w + 1 ∨ ∃ v, v ∈ values ∧
          (u = v ∨ u = v ++ "," ∨ u = v ++ ")"))
        ?_ ?_ (m :: M2) hM l hl
      · intro u hu
        rcases hu with hle | hin
        · exact Or.inl (close1_length u w hle)
        · obtain ⟨v, hv, hform⟩ := commaAll_mem rest u hin
          have hvv := hsub v hv
          obtain ⟨mm, hmm⟩ := hshape v hvv
          rcases hform with h | h
          · rw [h, close1_noComma v (pyEndsWith_comma_shape v mm hmm)]
            exact Or.inr ⟨v, hvv, Or.inr (Or.inr rfl)⟩
          · rw [h, close1_comma v]
            exact Or.inr ⟨v, hvv, Or.inr (Or.inr rfl)⟩
      · intro u hu
        rcases hu with hle | hin
        · exact Or.inl (by omega)
        · obtain ⟨v, hv, hform⟩ := commaAll_mem rest u hin
          rcases hform with h | h
          · exact Or.inr ⟨v, hsub v hv, Or.inl h⟩
          · exact Or.inr ⟨v, hsub v hv, Or.inr (Or.inl h)⟩

/-- Claim C5, amended: values after the first are packed greedily (a value
starts a new line exactly when appending a space plus that value would
exceed `w`); every output line after the first and before the last has
length at most `w` unless it consists of a single (comma-decorated) value,
and every output line after the first has length at most `w + 1` - the
final line may exceed `w` by the one appended close parenthesis - unless it
consists of a single value carrying its trailing comma or the close
parenthesis. -/
theorem c5_greedy_packing (s : String) (w : Nat) :
    (∀ l ∈ ((format_enum s w).tail).dropLast,
      l.length ≤ w ∨ ∃ v, v ∈ get_enum_values s ∧ (l = v ∨ l = v ++ ",")) ∧
    (∀ l ∈ (format_enum s w).tail,
      l.length ≤ w + 1 ∨ ∃ v, v ∈ get_enum_values s ∧
        (l = v ∨ l = v ++ "," ∨ l = v ++ ")")) := by
  cases hE : get_enum_values s with
  | nil =>
    constructor <;> intro l hl <;>
      rw [show format_enum s w = [s] from by simp [format_enum, hE]] at hl <;>
      simp at hl
  | cons v0 rest =>
    have hshape : ∀ v ∈ (v0 :: rest), ∃ m, v.data = qc :: (m ++ [qc]) := by
      intro v hv
      refine get_enum_values_shape s v ?_
      rw [hE]
      exact hv
    have hsub : ∀ v ∈ rest, v ∈ (v0 :: rest) :=
      fun v hv => List.mem_cons_of_mem v0 hv
    obtain ⟨extra, he1, he2, he3⟩ :=
      packLoop_inv w (commaAll rest) (commaAll rest)
        ["enum(" ++ v0 ++ (if rest.isEmpty then "" else ",")] ""
        (fun u hu => hu) (Or.inl rfl)
    simp only [format_enum, hE]
    by_cases hp2 : (packLoop w (commaAll rest)
        ["enum(" ++ v0 ++ (if rest.isEmpty then "" else ",")] "").2 = ""
    · rw [if_pos hp2, he1, List.singleton_append]
      exact wrapTailProp w (v0 :: rest) rest hsub hshape _ extra he2
    · rw [if_neg hp2, he1, List.append_assoc, List.singleton_append]
      refine wrapTailProp w (v0 :: rest) rest hsub hshape _ _ ?_
      intro l hl
      rcases List.mem_append.mp hl with hl1 | hl2
      · exact he2 l hl1
      · rw [List.mem_singleton.mp hl2]
        rcases he3 with h3 | h3 | h3
        · exact absurd h3 hp2
        · exact Or.inl h3
        · exact Or.inr h3

/-- Claim C5, counterexample: wrapping `enum('a','bb','cc')` at width 10
produces the final line `'bb', 'cc')` of length 11, which exceeds the width
although it carries two values, neither of which alone exceeds the width. -/
theorem c5_greedy_packing_cex :
    format_enum "enum(\x27a\x27,\x27bb\x27,\x27cc\x27)" 10 =
      ["enum(\x27a\x27,", "\x27bb\x27, \x27cc\x27)"] ∧
    10 < ("\x27bb\x27, \x27cc\x27)" : String).length ∧
    (findQuoted ("\x27bb\x27, \x27cc\x27)" : String).data).length = 2 :=
  ⟨by decide, by decide, by decide⟩

/-- Claim C5, witness: instance of `c5_greedy_packing`. -/
theorem c5_greedy_packing_witness :
    ("\x27b\x27, \x27c\x27)" : String) ∈
      (format_enum "enum(\x27a\x27,\x27b\x27,\x27c\x27)" 10).tail ∧
    (("\x27b\x27, \x27c\x27)" : String).length ≤ 10 + 1 ∨
      ∃ v, v ∈ get_enum_values "enum(\x27a\x27,\x27b\x27,\x27c\x27)" ∧
        (("\x27b\x27, \x27c\x27)" : String) = v ∨
         ("\x27b\x27, \x27c\x27)" : String) = v ++ "," ∨
         ("\x27b\x27, \x27c\x27)" : String) = v ++ ")")) :=
  ⟨by decide,
    (c5_greedy_packing "enum(\x27a\x27,\x27b\x27,\x27c\x27)" 10).2 _ (by decide)⟩

/-- A list is a Boolean prefix of itself extended. -/
theorem isPrefixOf_append_self (p t : List Char) : p.isPrefixOf (p ++ t) = true :=
  List.isPrefixOf_iff_prefix.mpr ⟨t, rfl⟩

/-- A Boolean prefix yields a decomposition. -/
theorem exists_of_isPrefixOf (p l : List Char) (h : p.isPrefixOf l = true) :
    ∃ t, l = p ++ t := by
  obtain ⟨t, ht⟩ := List.isPrefixOf_iff_prefix.mp h
  exact ⟨t, ht.symm⟩

/-- When the last-parenthesis scan fails, the list has no close parenthesis. -/
theorem upToLastParen_none : ∀ (l : List Char), upToLastParen l = none → ')' ∉ l := by
  intro l
  induction l with
  | nil => intro _ h; exact absurd h (List.not_mem_nil _)
  | cons c rest ih =>
    intro h hmem
    rw [show upToLastParen (c :: rest) = (match upToLastParen rest with
        | some v => some (c :: v)
        | none => if c = ')' then some [] else none) from rfl] at h
    cases hr : upToLastParen rest with
    | some v => rw [hr] at h; exact Option.noConfusion h
    | none =>
      rw [hr] at h
      by_cases hc : c = ')'
      · rw [if_pos hc] at h; exact Option.noConfusion h
      · rw [if_neg hc] at h
        rcases List.mem_cons.mp hmem with h1 | h1
        · exact hc h1.symm
        · exact (ih hr) h1

/-- The last-parenthesis scan returns the content before the LAST close
parenthesis: the remainder holds no further close parenthesis. -/
theorem upToLastParen_some : ∀ (l v : List Char),
    upToLastParen l = some v → ∃ post, l = v ++ ')' :: post ∧ ')' ∉ post := by
  intro l
  induction l with
  | nil => intro v h; exact Option.noConfusion h
  | cons c rest ih =>
    intro v h
    rw [show upToLastParen (c :: rest) = (match upToLastParen rest with
        | some v => some (c :: v)
        | none => if c = ')' then some [] else none) from rfl] at h
    cases hr : upToLastParen rest with
    | some v2 =>
      rw [hr] at h
      injection h with h2
      obtain ⟨post, hp1, hp2⟩ := ih v2 hr
      refine ⟨post, ?_, hp2⟩
      rw [← h2, hp1]
      rfl
    | none =>
      rw [hr] at h
      by_cases hc : c = ')'
      · rw [if_pos hc] at h
        injection h with h2
        refine ⟨rest, ?_, upToLastParen_none rest hr⟩
        rw [← h2, hc]
        rfl
      · rw [if_neg hc] at h; exact Option.noConfusion h

/-- A close parenthesis in the list makes the scan succeed. -/
theorem upToLastParen_isSome : ∀ (l : List Char), ')' ∈ l →
    ∃ v, upToLastParen l = some v := by
  intro l
  induction l with
  | nil => intro h; exact absurd h (List.not_mem_nil _)
  | cons c rest ih =>
    intro h
    cases hr : upToLastParen rest with
    | some v =>
      exact ⟨c :: v, by
        rw [show upToLastParen (c :: rest) = (match upToLastParen rest with
          | some v => some (c :: v)
          | none => if c = ')' then some [] else none) from rfl, hr]⟩
    | none =>
      have hcr : c = ')' := by
        rcases List.mem_cons.mp h with h1 | h1
        · exact h1.symm
        · exact absurd h1 (upToLastParen_none rest hr)
      exact ⟨[], by
        rw [show upToLastParen (c :: rest) = (match upToLastParen rest with
          | some v => some (c :: v)
          | none => if c = ')' then some [] else none) from rfl, hr, if_pos hcr]⟩

/-- An element sitting past position `n` survives `drop n`. -/
theorem mem_drop_append (b : Char) : ∀ (n : Nat) (A B : List Char),
    n ≤ A.length → b ∈ (A ++ b :: B).drop n := by
  intro n
  induction n with
  | zero => intro A B _; simp
  | succ n ih =>
    intro A B hn
    cases A with
    | nil => simp at hn
    | cons a A2 =>
      rw [List.cons_append, List.drop_succ_cons]
      exact ih A2 B (by simpa using hn)

/-- Characterization of a successful `enum(...)` search: the input splits
as junk, the FIRST occurrence of `enum(`, the captured content, the LAST
close parenthesis, and a parenthesis-free remainder. -/
theorem findEnumContent_some : ∀ (l c : List Char),
    findEnumContent l = some c →
    ∃ pre post, l = pre ++ ("enum(".data ++ (c ++ ')' :: post)) ∧ ')' ∉ post ∧
      ∀ k, k < pre.length → "enum(".data.isPrefixOf (l.drop k) = false := by
  intro l
  induction l with
  | nil => intro c h; exact Option.noConfusion h
  | cons x rest ih =>
    intro c h
    rw [show findEnumContent (x :: rest) =
        (if "enum(".data.isPrefixOf (x :: rest) then
          match upToLastParen ((x :: rest).drop 5) with
          | some content => some content
          | none => findEnumContent rest
        else findEnumContent rest) from rfl] at h
    by_cases hp : "enum(".data.isPrefixOf (x :: rest) = true
    · rw [if_pos hp] at h
      cases hu : upToLastParen ((x :: rest).drop 5) with
      | some content =>
        rw [hu] at h
        injection h with h2
        obtain ⟨t, ht⟩ := exists_of_isPrefixOf _ _ hp
        obtain ⟨post, hpost1, hpost2⟩ := upToLastParen_some _ _ hu
        have hdrop : (x :: rest).drop 5 = t := by
          rw [ht]
          exact List.drop_left "enum(".data t
        have htc : t = c ++ ')' :: post := by
          rw [← hdrop, hpost1, h2]
        refine ⟨[], post, ?_, hpost2, ?_⟩
        · rw [List.nil_append, ht, htc]
        · intro k hk; simp at hk
      | none =>
        rw [hu] at h
        obtain ⟨pre, post, hdec, hpost, hmin⟩ := ih c h
        exfalso
        have h5 : ("enum(".data).length = 5 := rfl
        have hlen : 4 ≤ ((pre ++ "enum(".data) ++ c).length := by
          rw [List.length_append, List.length_append, h5]
          omega
        have hmem : ')' ∈ (((pre ++ "enum(".data) ++ c) ++ ')' :: post).drop 4 :=
          mem_drop_append ')' 4 _ post hlen
        have hrest : rest = ((pre ++ "enum(".data) ++ c) ++ ')' :: post := by
          rw [hdec]
          simp [List.append_assoc]
        have hmem2 : ')' ∈ (x :: rest).drop 5 := by
          rw [List.drop_succ_cons, hrest]
          exact hmem
        obtain ⟨v, hv⟩ := upToLastParen_isSome _ hmem2
        rw [hv] at hu
        exact Option.noConfusion hu
    · rw [if_neg hp] at h
      obtain ⟨pre, post, hdec, hpost, hmin⟩ := ih c h
      refine ⟨x :: pre, post, ?_, hpost, ?_⟩
      · rw [List.cons_append, ← hdec]
      · intro k hk
        cases k with
        | zero =>
          rw [List.drop_zero]
          simp only [Bool.not_eq_true] at hp
          exact hp
        | succ k2 =>
          rw [List.drop_succ_cons]
          exact hmin k2 (by simpa using hk)

/-- Whenever the input decomposes as `enum(` followed eventually by a close
parenthesis, the search succeeds. -/
theorem findEnumContent_isSome : ∀ (pre mid post l : List Char),
    l = pre ++ ("enum(".data ++ (mid ++ ')' :: post)) →
    ∃ c, findEnumContent l = some c := by
  intro pre
  induction pre with
  | nil =>
    intro mid post l hl
    cases l with
    | nil => simp at hl
    | cons x rest =>
      rw [List.nil_append] at hl
      have hp : "enum(".data.isPrefixOf (x :: rest) = true := by
        rw [hl]
        exact isPrefixOf_append_self _ _
      have hmem : ')' ∈ (x :: rest).drop 5 := by
        rw [hl]
        show ')' ∈ ("enum(".data ++ (mid ++ ')' :: post)).drop ("enum(".data.length)
        rw [List.drop_left]
        simp
      obtain ⟨v, hv⟩ := upToLastParen_isSome _ hmem
      refine ⟨v, ?_⟩
      rw [show findEnumContent (x :: rest) =
          (if "enum(".data.isPrefixOf (x :: rest) then
            match upToLastParen ((x :: rest).drop 5) with
            | some content => some content
            | none => findEnumContent rest
          else findEnumContent rest) from rfl, if_pos hp, hv]
  | cons p pre2 ih =>
    intro mid post l hl
    cases l with
    | nil => simp at hl
    | cons x rest =>
      rw [List.cons_append] at hl
      injection hl with h1 h2
      obtain ⟨c2, hc2⟩ := ih mid post rest h2
      rw [show findEnumContent (x :: rest) =
          (if "enum(".data.isPrefixOf (x :: rest) then
            match upToLastParen ((x :: rest).drop 5) with
            | some content => some content
            | none => findEnumContent rest
          else findEnumContent rest) from rfl]
      by_cases hp : "enum(".data.isPrefixOf (x :: rest) = true
      · rw [if_pos hp]
        cases hu : upToLastParen ((x :: rest).drop 5) with
        | some content => exact ⟨content, rfl⟩
        | none =>
          exfalso
          obtain ⟨pre3, post3, hdec, hpost3, _⟩ := findEnumContent_some rest c2 hc2
          have h5 : ("enum(".data).length = 5 := rfl
          have hlen : 4 ≤ ((pre3 ++ "enum(".data) ++ c2).length := by
            rw [List.length_append, List.length_append, h5]
            omega
          have hmem : ')' ∈ (((pre3 ++ "enum(".data) ++ c2) ++ ')' :: post3).drop 4 :=
            mem_drop_append ')' 4 _ post3 hlen
          have hrest : rest = ((pre3 ++ "enum(".data) ++ c2) ++ ')' :: post3 := by
            rw [hdec]
            simp [List.append_assoc]
          have hmem2 : ')' ∈ (x :: rest).drop 5 := by
            rw [List.drop_succ_cons, hrest]
            exact hmem
          obtain ⟨v, hv⟩ := upToLastParen_isSome _ hmem2
          rw [hv] at hu
          exact Option.noConfusion hu
      · rw [if_neg hp]
        exact ⟨c2, hc2⟩

/-- Splitting at the LAST close parenthesis is unique. -/
theorem last_close_unique : ∀ (c c2 post post2 : List Char),
    c ++ ')' :: post = c2 ++ ')' :: post2 → ')' ∉ post → ')' ∉ post2 →
    c = c2 ∧ post = post2 := by
  intro c
  induction c with
  | nil =>
    intro c2 post post2 heq hp hp2
    cases c2 with
    | nil =>
      rw [List.nil_append, List.nil_append] at heq
      injection heq with _ h2
      exact ⟨rfl, h2⟩
    | cons y c3 =>
      rw [List.nil_append, List.cons_append] at heq
      injection heq with h1 h2
      exfalso
      apply hp
      rw [h2]
      simp
  | cons x c1 ih =>
    intro c2 post post2 heq hp hp2
    cases c2 with
    | nil =>
      rw [List.nil_append, List.cons_append] at heq
      injection heq with h1 h2
      exfalso
      apply hp2
      rw [← h2]
      simp
    | cons y c3 =>
      rw [List.cons_append, List.cons_append] at heq
      injection heq with h1 h2
      obtain ⟨ha, hb⟩ := ih c3 post post2 h2 hp hp2
      exact ⟨by rw [h1, ha], hb⟩

/-- Claim C6, amended: `get_enum_values` returns, in source order and with
the surrounding single quotes retained, the fully single-quoted substrings
of the content lying between the first `(` following `enum` and the LAST
close parenthesis of the string (the regular expression group is greedy,
not bracket-matched), and returns the empty sequence when no `enum(...)`
pattern is present. -/
theorem c6_enum_extraction (s : String) :
    (∀ pre c post,
      s.data = pre ++ ("enum(".data ++ (c ++ ')' :: post)) → ')' ∉ post →
      (∀ k, k < pre.length → "enum(".data.isPrefixOf (s.data.drop k) = false) →
      get_enum_values s = findQuoted c) ∧
    ((∀ pre mid post, s.data ≠ pre ++ ("enum(".data ++ (mid ++ ')' :: post))) →
      get_enum_values s = []) := by
  constructor
  · intro pre c post hdec hpost hmin
    obtain ⟨c2, hc2⟩ := findEnumContent_isSome pre c post s.data hdec
    obtain ⟨pre2, post2, hdec2, hpost2, hmin2⟩ := findEnumContent_some s.data c2 hc2
    have hpfx : "enum(".data.isPrefixOf (s.data.drop pre.length) = true := by
      rw [hdec, List.drop_left]
      exact isPrefixOf_append_self _ _
    have hpfx2 : "enum(".data.isPrefixOf (s.data.drop pre2.length) = true := by
      rw [hdec2, List.drop_left]
      exact isPrefixOf_append_self _ _
    have hle1 : ¬ pre.length < pre2.length := by
      intro hlt
      have hmn := hmin2 pre.length hlt
      rw [hmn] at hpfx
      exact Bool.noConfusion hpfx
    have hle2 : ¬ pre2.length < pre.length := by
      intro hlt
      have hmn := hmin pre2.length hlt
      rw [hmn] at hpfx2
      exact Bool.noConfusion hpfx2
    have heqlen : pre.length = pre2.length := by omega
    have happ : pre ++ ("enum(".data ++ (c ++ ')' :: post)) =
        pre2 ++ ("enum(".data ++ (c2 ++ ')' :: post2)) := by
      rw [← hdec, ← hdec2]
    obtain ⟨hpre, hrest⟩ := List.append_inj happ heqlen
    have hrest2 : c ++ ')' :: post = c2 ++ ')' :: post2 :=
      List.append_cancel_left hrest
    obtain ⟨hc, _⟩ := last_close_unique c c2 post post2 hrest2 hpost hpost2
    have hval : get_enum_values s = findQuoted c2 := by
      unfold get_enum_values
      rw [hc2]
    rw [hval, ← hc]
  · intro hno
    unfold get_enum_values
    cases hfc : findEnumContent s.data with
    | none => rfl
    | some c =>
      obtain ⟨pre, post, hdec, _, _⟩ := findEnumContent_some s.data c hfc
      exact absurd hdec (hno pre c post)

/-- Claim C6, counterexample: on `enum('a') x 'b')` the source extracts
greedily up to the LAST close parenthesis, yielding both quoted values,
while the bracket-matched reading of the claim stops at the close
parenthesis matching the open one and would yield only the first. -/
theorem c6_enum_extraction_cex :
    get_enum_values "enum(\x27a\x27) x \x27b\x27)" = ["\x27a\x27", "\x27b\x27"] ∧
    claimEnumValuesMatching "enum(\x27a\x27) x \x27b\x27)" = ["\x27a\x27"] ∧
    (["\x27a\x27", "\x27b\x27"] : List String) ≠ ["\x27a\x27"] :=
  ⟨by decide, by decide, by decide⟩

/-- Claim C6, witness: instance of `c6_enum_extraction`. -/
theorem c6_enum_extraction_witness :
    ("enum(\x27a\x27) x \x27b\x27)" : String).data =
      [] ++ ("enum(".data ++ ((("\x27a\x27) x \x27b\x27" : String).data) ++ ')' :: [])) ∧
    ')' ∉ ([] : List Char) ∧
    get_enum_values "enum(\x27a\x27) x \x27b\x27)" =
      findQuoted (("\x27a\x27) x \x27b\x27" : String).data) :=
  ⟨by decide, by decide,
    (c6_enum_extraction "enum(\x27a\x27) x \x27b\x27)").1 []
      (("\x27a\x27) x \x27b\x27" : String).data) [] (by decide) (by decide)
      (fun k hk => absurd hk (Nat.not_lt_zero k))⟩
